import Mathlib

/-!
Verification of the DEFLATE/gzip decompression sketch in `src/cab/gunzip.c`
against its natural-language specification.

The C source is embedded shallowly: machine integers become `Nat` (the widths
involved never overflow the C types: byte values stay below 2^8, 16-bit word
values below 2^16), byte buffers become `List Nat` read through `List.getD`
with default 0, and the mutable `struct Bitstream` becomes a Lean structure
threaded through the functions.  Functions the source only stubs out
(`init_hufftree` / `readsym`, the output window, the trailer check) are
modelled from the specification; each such definition says so in its doc
comment.
-/

namespace Gunzip

/-- Errors named by the specification (§7), plus the one fatal exit of the
source that has no counterpart in the spec's error list: `main` aborts with
the message `unsupported uncompressed block` when it sees block type 00. -/
inductive Err where
  | InvalidHeader
  | UnexpectedEndOfStream
  | InvalidBlockType
  | StoredBlockLengthMismatch
  | InvalidHuffmanTree
  | InvalidHuffmanCode
  | InvalidTreeDescription
  | InvalidSymbol
  | InvalidDistance
  | TrailerMismatch
  | UnsupportedStoredBlock
  deriving Repr, DecidableEq

instance {ε α : Type} [DecidableEq ε] [DecidableEq α] : DecidableEq (Except ε α)
  | .error a, .error b =>
    if h : a = b then .isTrue (by rw [h]) else .isFalse (by simp [h])
  | .error _, .ok _ => .isFalse (by simp)
  | .ok _, .error _ => .isFalse (by simp)
  | .ok a, .ok b =>
    if h : a = b then .isTrue (by rw [h]) else .isFalse (by simp [h])

/-- `little_uint16t` from src/cab/gunzip.c: `d[1] << 8 | d[0]`.  The byte
pointer `d` becomes a list; reads beyond it yield 0. -/
def little_uint16t (d : List Nat) : Nat :=
  d.getD 1 0 <<< 8 ||| d.getD 0 0

/-- `little_uint32t` from src/cab/gunzip.c:
`d[3] << 24 | d[2] << 16 | d[1] << 8 | d[0]`. -/
def little_uint32t (d : List Nat) : Nat :=
  d.getD 3 0 <<< 24 ||| d.getD 2 0 <<< 16 ||| d.getD 1 0 <<< 8 ||| d.getD 0 0

/-- `struct Bitstream` from src/cab/gunzip.c.  `source` is the byte buffer the
C code accesses through a pointer; `source_len` is the separate length field
(the caller in `main` passes a length smaller than the allocation). -/
structure Bitstream where
  curbit : Nat
  curword : Nat
  curword_val : Nat
  source : List Nat
  source_len : Nat
  deriving Repr, DecidableEq

/-- `bitstream_init` from src/cab/gunzip.c. -/
def bitstream_init (source : List Nat) (source_len : Nat) : Bitstream :=
  { curbit := 0, curword := 0, curword_val := little_uint16t source,
    source := source, source_len := source_len }

/-- `getbit` from src/cab/gunzip.c.  Note the source has no failure path: past
the end of the buffer it keeps returning bits of the last word it loaded
(the reload is guarded by `curword < source_len`, nothing else is). -/
def getbit (bs : Bitstream) : Nat × Bitstream :=
  let bit := bs.curword_val >>> bs.curbit &&& 1
  let curbit := bs.curbit + 1
  if curbit > 15 then
    let curword := bs.curword + 2
    let curword_val :=
      if curword < bs.source_len then little_uint16t (bs.source.drop curword)
      else bs.curword_val
    (bit, { bs with curbit := 0, curword := curword, curword_val := curword_val })
  else
    (bit, { bs with curbit := curbit })

/-- The loop body of `getbits`: `bits = bits | (getbit(bs) << i)` for `i`
running over the remaining count. -/
def getbitsFrom (bs : Bitstream) (i bits : Nat) : Nat → Nat × Bitstream
  | 0 => (bits, bs)
  | n + 1 =>
    let p := getbit bs
    getbitsFrom p.2 (i + 1) (bits ||| p.1 <<< i) n

/-- `getbits` from src/cab/gunzip.c. -/
def getbits (bs : Bitstream) (n : Nat) : Nat × Bitstream :=
  getbitsFrom bs 0 0 n

/-- Specification-side view: bit `k` of the byte stream, bytes in order,
least-significant bit of each byte first (RFC 1951 bit order). -/
def streamBit (source : List Nat) (k : Nat) : Nat :=
  ((source.getD (k / 8) 0).testBit (k % 8)).toNat

/-- Absolute bit position of a `Bitstream` cursor: `curword` is a byte offset,
`curbit` counts bits inside the 16-bit word loaded there. -/
def Bitstream.bitpos (bs : Bitstream) : Nat :=
  8 * bs.curword + bs.curbit

/-- Well-formed reader states: the cursor is inside the current word, the word
offset is even (it only ever advances by 2), the buffer holds bytes, and as
long as the cursor has not passed `source_len` the cached `curword_val` is the
little-endian word at `curword`. -/
def Bitstream.wf (bs : Bitstream) : Prop :=
  bs.curbit ≤ 15 ∧ bs.curword % 2 = 0 ∧ (∀ b ∈ bs.source, b < 256) ∧
    (bs.bitpos < 8 * bs.source_len →
      bs.curword_val = little_uint16t (bs.source.drop bs.curword))

instance (bs : Bitstream) : Decidable bs.wf := by
  unfold Bitstream.wf
  infer_instance

/-! ### Canonical Huffman trees, modelled from the specification

`init_hufftree` and `readsym` are `XXX` stubs in src/cab/gunzip.c, so the
canonical construction and the decoder are modelled from spec §4.2.  A tree is
represented by its code-lengths sequence; the canonical assignment is the
closed form of the walk the spec describes: symbol `s` of nonzero length `l`
receives `first_code[l]` plus the number of earlier symbols of the same
length. -/

/-- Modelled from the spec: `length_count[l]`, how many symbols use length
`l` (spec §4.2, construction step 1). -/
def lengthCount (lengths : List Nat) (l : Nat) : Nat :=
  lengths.count l

/-- Modelled from the spec: `first_code[1] = 0`,
`first_code[l] = (first_code[l-1] + length_count[l-1]) << 1` (spec §4.2). -/
def firstCode (lengths : List Nat) : Nat → Nat
  | 0 => 0
  | 1 => 0
  | l + 2 => (firstCode lengths (l + 1) + lengthCount lengths (l + 1)) <<< 1

/-- Modelled from the spec: the code the canonical walk assigns to symbol `s`
("assign it the next available code of its length and increment a per-length
cursor", spec §4.2): first code of its length plus the number of earlier
symbols sharing that length. -/
def codeOf (lengths : List Nat) (s : Nat) : Nat :=
  firstCode lengths (lengths.getD s 0) + (lengths.take s).count (lengths.getD s 0)

/-- Modelled from the spec: "look up whether any symbol has that
(length, code) pair" (spec §4.2, decoding). -/
def findSym (lengths : List Nat) (len code : Nat) : Option Nat :=
  (List.range lengths.length).find? fun s =>
    lengths.getD s 0 == len && codeOf lengths s == code

/-- Modelled from the spec: the decode loop of `readsym` — read one bit,
extend the running code value, stop at the first (length, code) match; the
fuel starts at the maximum code length 15, and running out of it is the
`InvalidHuffmanCode` failure (spec §4.2). -/
def readsymGo (lengths : List Nat) (len code : Nat) (bs : Bitstream) :
    Nat → Except Err (Nat × Bitstream)
  | 0 => .error .InvalidHuffmanCode
  | fuel + 1 =>
    let p := getbit bs
    let code' := 2 * code + p.1
    let len' := len + 1
    match findSym lengths len' code' with
    | some s => .ok (s, p.2)
    | none => readsymGo lengths len' code' p.2 fuel

/-- Modelled from the spec: `readsym` (an `XXX` stub in src/cab/gunzip.c),
per spec §4.2. -/
def readsym (lengths : List Nat) (bs : Bitstream) : Except Err (Nat × Bitstream) :=
  readsymGo lengths 0 0 bs 15

/-- Specification-side view: the running code value and reader state after `k`
bits have been folded in MSB-first (`code := 2 * code + bit`). -/
def runCode (bs : Bitstream) : Nat → Nat × Bitstream
  | 0 => (0, bs)
  | k + 1 =>
    let q := runCode bs k
    let p := getbit q.2
    (2 * q.1 + p.1, p.2)

/-- Code-lengths sequences the tree builder accepts (spec §4.2): lengths are
capped at 15 and no length's code space is oversubscribed. -/
def hufftreeAccepted (lengths : List Nat) : Prop :=
  (∀ l ∈ lengths, l ≤ 15) ∧
    ∀ l ∈ List.range 15,
      firstCode lengths (l + 1) + lengthCount lengths (l + 1) ≤ 2 ^ (l + 1)

instance (lengths : List Nat) : Decidable (hufftreeAccepted lengths) := by
  unfold hufftreeAccepted
  infer_instance

/-! ### The pretree decoder (`deflate_decode_pretree`)

The C function mutates an `int lengths[]` array through possibly negative /
out-of-declared-range indices (it has no bounds checks), so the array is
embedded as a total function `Int → Nat`.  The loop advances `i` by at least
one per iteration, which the structural `fuel` argument of the helper makes
explicit; the wrapper passes `num_lengths`, an upper bound on the number of
iterations, and `decode_pretree_go_fuel_irrel` below shows any fuel of at
least `num_lengths - i` gives the same result. -/

/-- One run of writes of the C loops `for (int j = i; j < i+n; ++j)
lengths[j] = v`. -/
def writeRun (lengths : Int → Nat) (i n : Nat) (v : Nat) : Int → Nat :=
  fun j => if (i : Int) ≤ j ∧ j < (i : Int) + n then v else lengths j

/-- The loop of `deflate_decode_pretree` from src/cab/gunzip.c.  `readsym` is
the spec-modelled decoder (the C one is a stub); its failure is propagated,
which the C code cannot express.  Note the source checks neither that code 16
has a predecessor (it reads `lengths[i - 1]`, which is `lengths[-1]` when
`i = 0`) nor that a repeat run stays below `num_lengths`. -/
def decode_pretree_go (pretree : List Nat) (bs : Bitstream) (lengths : Int → Nat)
    (i num_lengths : Nat) : Nat → Except Err ((Int → Nat) × Bitstream)
  | 0 => .ok (lengths, bs)
  | fuel + 1 =>
    if i < num_lengths then
      match readsym pretree bs with
      | .error e => .error e
      | .ok (code, bs1) =>
        if code ≤ 15 then
          decode_pretree_go pretree bs1 (writeRun lengths i 1 code) (i + 1) num_lengths fuel
        else if code = 16 then
          let p := getbits bs1 2
          let n := 3 + p.1
          decode_pretree_go pretree p.2 (writeRun lengths i n (lengths ((i : Int) - 1)))
            (i + n) num_lengths fuel
        else if code = 17 then
          let p := getbits bs1 3
          let n := 3 + p.1
          decode_pretree_go pretree p.2 (writeRun lengths i n 0) (i + n) num_lengths fuel
        else
          let p := getbits bs1 7
          let n := 11 + p.1
          decode_pretree_go pretree p.2 (writeRun lengths i n 0) (i + n) num_lengths fuel
    else
      .ok (lengths, bs)

/-- `deflate_decode_pretree` from src/cab/gunzip.c (starting at `i = 0`). -/
def deflate_decode_pretree (pretree : List Nat) (bs : Bitstream) (lengths : Int → Nat)
    (num_lengths : Nat) : Except Err ((Int → Nat) × Bitstream) :=
  decode_pretree_go pretree bs lengths 0 num_lengths num_lengths

/-- Reads off the decoded lengths array of a pretree-decoder result. -/
def pretreeResultAt (r : Except Err ((Int → Nat) × Bitstream)) (j : Int) : Option Nat :=
  match r with
  | .ok (f, _) => some (f j)
  | .error _ => none

/-- Whether a pretree-decoder result is the `InvalidTreeDescription` error. -/
def isInvalidTreeDescription (r : Except Err ((Int → Nat) × Bitstream)) : Bool :=
  match r with
  | .error .InvalidTreeDescription => true
  | _ => false

/-! ### The dynamic-block tree descriptor (src/cab/gunzip.c, `main`,
`block_type == 2`) -/

/-- `pretree_order` from src/cab/gunzip.c. -/
def pretree_order : List Nat :=
  [16, 17, 18, 0, 8, 7, 9, 6, 10, 5, 11, 4, 12, 3, 13, 2, 14, 1, 15]

/-- The first header loop: `for (i = 0; i < num_pretree; ++i)
pretree_lengths[pretree_order[i]] = getbits(&bitstream, 3)`, with the list of
indices still to be written as the recursion argument.  The C array is a
function `Nat → Nat`; its initial contents are the caller's `init` (the C
array is uninitialized, but every cell is written before use because
`pretree_order` is a permutation of `0..18`). -/
def readPretreeLens : List Nat → (Nat → Nat) → Bitstream → (Nat → Nat) × Bitstream
  | [], pl, bs => (pl, bs)
  | k :: ks, pl, bs =>
    let p := getbits bs 3
    readPretreeLens ks (fun x => if x = k then p.1 else pl x) p.2

/-- The second header loop: `for (; i < 19; ++i)
pretree_lengths[pretree_order[i]] = 0`. -/
def zeroPretreeLens : List Nat → (Nat → Nat) → Nat → Nat
  | [], pl => pl
  | k :: ks, pl => zeroPretreeLens ks fun x => if x = k then 0 else pl x

/-- The values `main` computes for a dynamic-Huffman block before decoding the
combined lengths sequence. -/
structure DynHeader where
  num_literals_lengths : Nat
  num_distances : Nat
  num_pretree : Nat
  pretree_lengths : Nat → Nat
  rest : Bitstream

/-- The dynamic-block header reads of `main` (src/cab/gunzip.c, lines
203-211): 5 bits plus 257, 5 bits plus 1, 4 bits plus 4, then the two
`pretree_order` loops. -/
def read_dyn_header (bs : Bitstream) (init : Nat → Nat) : DynHeader :=
  let p1 := getbits bs 5
  let p2 := getbits p1.2 5
  let p3 := getbits p2.2 4
  let num_pretree := p3.1 + 4
  let q := readPretreeLens (pretree_order.take num_pretree) init p3.2
  let pl := zeroPretreeLens (pretree_order.drop num_pretree) q.1
  { num_literals_lengths := p1.1 + 257, num_distances := p2.1 + 1,
    num_pretree := num_pretree, pretree_lengths := pl, rest := q.2 }

/-- The 19-entry code-lengths list handed to `init_hufftree(&pretree,
pretree_lengths, 19)`. -/
def pretreeList (pl : Nat → Nat) : List Nat :=
  (List.range 19).map pl

/-- The rest of the dynamic-block setup in `main`: decode a single combined
sequence of `num_literals_lengths + num_distances` lengths with the pretree,
then slice it — `init_hufftree(&littree, lengths, num_literals_lengths)` and
`init_hufftree(&disttree, lengths + num_literals_lengths, num_distances)`. -/
def dyn_block_trees (bs : Bitstream) (init : Nat → Nat) (initLengths : Int → Nat) :
    Except Err (List Nat × List Nat × Bitstream) :=
  let h := read_dyn_header bs init
  match deflate_decode_pretree (pretreeList h.pretree_lengths) h.rest initLengths
      (h.num_literals_lengths + h.num_distances) with
  | .error e => .error e
  | .ok (lengths, bs1) =>
    .ok ((List.range h.num_literals_lengths).map fun s => lengths s,
      (List.range h.num_distances).map fun s => lengths ((h.num_literals_lengths : Int) + s),
      bs1)

/-- Specification-side view: the reader state after `k` successive
3-bit reads. -/
def state3 (bs : Bitstream) : Nat → Bitstream
  | 0 => bs
  | k + 1 => (getbits (state3 bs k) 3).2

/-- The reader state after the three dynamic-header count reads (5, 5 and 4
bits). -/
def afterDynCounts (bs : Bitstream) : Bitstream :=
  (getbits (getbits (getbits bs 5).2 5).2 4).2

/-! ### The length/distance base tables (src/cab/gunzip.c, `main`,
lines 164-187) -/

/-- `extra_len_bits` from src/cab/gunzip.c: zero-initialized 29-entry array,
`extra_len_bits[i + 4] = i / 4` for `i < 24`, then entry 28 forced to 0. -/
def extra_len_bits : List Nat :=
  (((List.range 24).foldl (fun a i => a.set (i + 4) (i / 4))
    (List.replicate 29 0))).set 28 0

/-- The base-value accumulation loop shared by both tables:
`base[i] = b; b += 1 << extra[i]`. -/
def basesFrom (extras : List Nat) (b : Nat) : List Nat :=
  match extras with
  | [] => []
  | e :: es => b :: basesFrom es (b + (1 <<< e))

/-- `base_lengths` from src/cab/gunzip.c: accumulated from base 3, with entry
28 (code 285) overridden to the special value 258. -/
def base_lengths : List Nat :=
  (basesFrom extra_len_bits 3).set 28 258

/-- `extra_dist_bits` from src/cab/gunzip.c: zero-initialized 30-entry array,
`extra_dist_bits[i + 2] = i / 2` for `i < 28`. -/
def extra_dist_bits : List Nat :=
  (List.range 28).foldl (fun a i => a.set (i + 2) (i / 2)) (List.replicate 30 0)

/-- `base_dists` from src/cab/gunzip.c: accumulated from base 1. -/
def base_dists : List Nat :=
  basesFrom extra_dist_bits 1

/-- The RFC 1951 §3.2.5 table for length codes 257-285, one
(base value, extra-bit count) pair per code, as the spec's data model
describes it. -/
def rfc_length_table : List (Nat × Nat) :=
  [(3, 0), (4, 0), (5, 0), (6, 0), (7, 0), (8, 0), (9, 0), (10, 0),
   (11, 1), (13, 1), (15, 1), (17, 1), (19, 2), (23, 2), (27, 2), (31, 2),
   (35, 3), (43, 3), (51, 3), (59, 3), (67, 4), (83, 4), (99, 4), (115, 4),
   (131, 5), (163, 5), (195, 5), (227, 5), (258, 0)]

/-- The RFC 1951 §3.2.5 table for distance codes 0-29, one
(base value, extra-bit count) pair per code. -/
def rfc_dist_table : List (Nat × Nat) :=
  [(1, 0), (2, 0), (3, 0), (4, 0), (5, 1), (7, 1), (9, 2), (13, 2),
   (17, 3), (25, 3), (33, 4), (49, 4), (65, 5), (97, 5), (129, 6), (193, 6),
   (257, 7), (385, 7), (513, 8), (769, 8), (1025, 9), (1537, 9),
   (2049, 10), (3073, 10), (4097, 11), (6145, 11), (8193, 12), (12289, 12),
   (16385, 13), (24577, 13)]

/-- The base-value column of the RFC length table. -/
def rfc_length_base : List Nat :=
  rfc_length_table.map Prod.fst

/-- The extra-bits column of the RFC length table. -/
def rfc_length_extra : List Nat :=
  rfc_length_table.map Prod.snd

/-- The base-value column of the RFC distance table. -/
def rfc_dist_base : List Nat :=
  rfc_dist_table.map Prod.fst

/-- The extra-bits column of the RFC distance table. -/
def rfc_dist_extra : List Nat :=
  rfc_dist_table.map Prod.snd

/-! ### Block dispatch (src/cab/gunzip.c, `main`, lines 192-196) -/

/-- The per-block header handling in `main`: one bit of `is_last_block`, two
bits of `block_type`, then `fatal` on type 3 (reserved) and — in this sketch —
also on type 0, with the message `unsupported uncompressed block`. -/
def block_dispatch (bs : Bitstream) : Except Err (Bool × Nat × Bitstream) :=
  let lb := getbit bs
  let bt := getbits lb.2 2
  if bt.1 = 3 then .error .InvalidBlockType
  else if bt.1 = 0 then .error .UnsupportedStoredBlock
  else .ok (lb.1 == 1, bt.1, bt.2)

/-! ### The output window, modelled from the specification

`main` only carries the comments `//window.output_literal(code)` and
`//window.copy_match(match_offset, match_len)`; the OutputWindow itself does
not exist in src/, so it is modelled from spec §4.5. -/

/-- Modelled from the spec: the copy loop of `copy_match` — append `length`
bytes one at a time, each read `distance` positions back from the end of the
buffer as it grows (spec §4.5). -/
def copyLoop (out : List Nat) (dist : Nat) : Nat → List Nat
  | 0 => out
  | n + 1 => copyLoop (out ++ [out.getD (out.length - dist) 0]) dist n

/-- Modelled from the spec: `copy_match(distance, length)` validates
`1 ≤ distance ≤ current_length`, else fatal `InvalidDistance`, then runs the
one-byte-at-a-time copy loop (spec §4.5). -/
def copy_match (out : List Nat) (dist len : Nat) : Except Err (List Nat) :=
  if 1 ≤ dist ∧ dist ≤ out.length then .ok (copyLoop out dist len)
  else .error .InvalidDistance

/-! ### Gzip header parsing (src/cab/gunzip.c, `main`, lines 127-161) -/

/-- `strlen((char*)gz + off)` over the embedded buffer: the number of bytes
before the first zero byte at or after `off`. -/
def strlenFrom (gz : List Nat) (off : Nat) : Nat :=
  ((gz.drop off).takeWhile fun b => b != 0).length

/-- The offsets `main` steps through while parsing the gzip header: the value
of `off` after each optional field (extra, name, comment, header CRC), plus
the flag byte. -/
structure GzHeaderOffsets where
  flags : Nat
  off_extra : Nat
  off_name : Nat
  off_comment : Nat
  off_crc : Nat
  deriving Repr, DecidableEq

/-- The gzip header parse of `main` (lines 127-161): magic `1f 8b`, method 8
(the three fatals `file too small`, `invalid file header` and `unexpected
compression method` all fall under the spec's `InvalidHeader`), then the
optional fields in source order FEXTRA (flag 4), FNAME (flag 8), FCOMMENT
(flag 16), FHCRC (flag 2).  Note the FEXTRA size field is read with
`little_uint32t` and skipped with `off += 4 + extra_size`. -/
def parse_header (gz : List Nat) : Except Err GzHeaderOffsets :=
  if gz.length < 10 then .error .InvalidHeader
  else if ¬(gz.getD 0 0 = 31 ∧ gz.getD 1 0 = 139) then .error .InvalidHeader
  else if gz.getD 2 0 ≠ 8 then .error .InvalidHeader
  else
    let flags := gz.getD 3 0
    let off_extra :=
      if flags &&& 4 ≠ 0 then 10 + 4 + little_uint32t (gz.drop 10) else 10
    let off_name :=
      if flags &&& 8 ≠ 0 then off_extra + strlenFrom gz off_extra + 1 else off_extra
    let off_comment :=
      if flags &&& 16 ≠ 0 then off_name + strlenFrom gz off_name + 1 else off_name
    let off_crc :=
      if flags &&& 2 ≠ 0 then off_comment + 2 else off_comment
    .ok { flags := flags, off_extra := off_extra, off_name := off_name,
          off_comment := off_comment, off_crc := off_crc }

/-! ### The trailer check, modelled from the specification

After the block loop, `main` only frees the buffer and returns; the trailer
comparison the spec requires does not exist in src/.  `main` does reserve the
trailer (line 190 passes `size - off - 8` as the payload length), and the
spec (§4.6, §6) says the last 4 bytes are the uncompressed size modulo 2^32,
little-endian, to be compared with the produced length. -/

/-- Modelled from the spec: the trailer validation of spec §4.6 — compare the
4-byte little-endian size field (the last 4 bytes of the file) against the
number of decompressed bytes produced, failing with `TrailerMismatch` on
disagreement. -/
def check_trailer (gz : List Nat) (decompressed_len : Nat) : Except Err Unit :=
  if little_uint32t (gz.drop (gz.length - 4)) = decompressed_len % 2 ^ 32 then .ok ()
  else .error .TrailerMismatch

/-! ### Concrete inputs used by the closed theorems below -/

/-- A 19-symbol pretree giving symbol 0 the 1-bit code `0` and symbol 18 the
1-bit code `1`. -/
def pt6 : List Nat :=
  [1, 0, 0, 0, 0, 0, 0, 0, 0, 0, 0, 0, 0, 0, 0, 0, 0, 0, 1]

/-- A bitstream whose bits are `1` followed by fifteen `0`s: under `pt6` the
first symbol decodes to 18 and the following seven extra bits are all 0. -/
def bs6 : Bitstream :=
  bitstream_init [1, 0] 2

/-- A four-byte dynamic-header example: enough bits for the three count
fields and a few 3-bit pretree lengths. -/
def bsC5 : Bitstream :=
  bitstream_init [33, 74, 129, 57] 4

/-- A gzip header whose FEXTRA flag is set and whose 4-byte extra-size field
is 2: `main` resumes parsing at offset 16. -/
def gz10 : List Nat :=
  [31, 139, 8, 4, 0, 0, 0, 0, 0, 3, 2, 0, 0, 0, 7, 7]

/-! ## Theorems -/

theorem getD_lt_256 (src : List Nat) (h : ∀ b ∈ src, b < 256) (i : Nat) :
    src.getD i 0 < 256 := by
  by_cases hi : i < src.length
  · rw [List.getD_eq_getElem src 0 hi]
    exact h _ (List.getElem_mem hi)
  · rw [List.getD_eq_default src 0 (Nat.le_of_not_lt hi)]
    decide

theorem getD_drop (l : List Nat) (w k : Nat) :
    (l.drop w).getD k 0 = l.getD (w + k) 0 := by
  simp [List.getD_eq_getElem?_getD, List.getElem?_drop]

theorem little_uint16t_eq (d : List Nat) (h0 : d.getD 0 0 < 256) :
    little_uint16t d = 2 ^ 8 * d.getD 1 0 + d.getD 0 0 := by
  rw [little_uint16t, Nat.shiftLeft_eq, Nat.mul_comm]
  exact (Nat.mul_add_lt_is_or h0 _).symm

theorem shiftRight_and_one (v c : Nat) : v >>> c &&& 1 = (v.testBit c).toNat := by
  rw [Nat.and_one_is_mod, Nat.shiftRight_eq_div_pow]
  rcases Nat.mod_two_eq_zero_or_one (v / 2 ^ c) with h | h <;>
    simp [Nat.testBit_to_div_mod, h]

theorem getbit_eq_advance (bs : Bitstream) (h15 : bs.curbit + 1 > 15) :
    getbit bs = (bs.curword_val >>> bs.curbit &&& 1,
      { bs with
          curbit := 0
          curword := bs.curword + 2
          curword_val :=
            if bs.curword + 2 < bs.source_len then
              little_uint16t (bs.source.drop (bs.curword + 2))
            else bs.curword_val }) := by
  simp [getbit, h15]

theorem getbit_eq_stay (bs : Bitstream) (h15 : ¬bs.curbit + 1 > 15) :
    getbit bs = (bs.curword_val >>> bs.curbit &&& 1, { bs with curbit := bs.curbit + 1 }) := by
  simp [getbit, h15]

/-- One `getbit` call on a well-formed, in-bounds reader returns exactly the
stream bit at the cursor and advances the cursor by one bit. -/
theorem getbit_stream (bs : Bitstream) (hwf : bs.wf) (hin : bs.bitpos < 8 * bs.source_len) :
    (getbit bs).1 = streamBit bs.source bs.bitpos ∧
      (getbit bs).2.bitpos = bs.bitpos + 1 ∧
      (getbit bs).2.wf ∧
      (getbit bs).2.source = bs.source ∧
      (getbit bs).2.source_len = bs.source_len := by
  obtain ⟨hc, hw, hb, hv⟩ := hwf
  have hval := hv hin
  have hb0 : bs.source.getD bs.curword 0 < 256 := getD_lt_256 _ hb _
  have hbitval : (getbit bs).1 = streamBit bs.source bs.bitpos := by
    have h1 : (getbit bs).1 = bs.curword_val >>> bs.curbit &&& 1 := by
      by_cases h15 : bs.curbit + 1 > 15
      · rw [getbit_eq_advance bs h15]
      · rw [getbit_eq_stay bs h15]
    rw [h1, shiftRight_and_one, hval, little_uint16t_eq _ (by rw [getD_drop]; simpa using hb0),
      getD_drop, getD_drop, Nat.add_zero]
    rw [Nat.testBit_mul_pow_two_add _ (by simpa using hb0)]
    by_cases hc8 : bs.curbit < 8
    · have hdiv : (8 * bs.curword + bs.curbit) / 8 = bs.curword := by
        rw [Nat.mul_add_div (by omega)]
        omega
      have hmod : (8 * bs.curword + bs.curbit) % 8 = bs.curbit := by
        rw [Nat.mul_add_mod]
        omega
      simp [streamBit, Bitstream.bitpos, hdiv, hmod, hc8]
    · have hsplit : 8 * bs.curword + bs.curbit = 8 * (bs.curword + 1) + (bs.curbit - 8) := by
        omega
      have hdiv : (8 * bs.curword + bs.curbit) / 8 = bs.curword + 1 := by
        rw [hsplit, Nat.mul_add_div (by omega)]
        omega
      have hmod : (8 * bs.curword + bs.curbit) % 8 = bs.curbit - 8 := by
        rw [hsplit, Nat.mul_add_mod]
        omega
      simp [streamBit, Bitstream.bitpos, hdiv, hmod, hc8]
  refine ⟨hbitval, ?_⟩
  by_cases h15 : bs.curbit + 1 > 15
  · have hc15 : bs.curbit = 15 := by omega
    rw [getbit_eq_advance bs h15]
    refine ⟨?_, ⟨by show (0 : Nat) ≤ 15; decide, by show (bs.curword + 2) % 2 = 0; omega,
      by show ∀ b ∈ bs.source, b < 256; exact hb, ?_⟩,
      by show bs.source = bs.source; rfl, by show bs.source_len = bs.source_len; rfl⟩
    · show 8 * (bs.curword + 2) + 0 = 8 * bs.curword + bs.curbit + 1
      omega
    · show 8 * (bs.curword + 2) + 0 < 8 * bs.source_len → _
      intro hlt
      have hcw : bs.curword + 2 < bs.source_len := by omega
      simp [hcw]
  · rw [getbit_eq_stay bs h15]
    refine ⟨?_, ⟨by show bs.curbit + 1 ≤ 15; omega, by show bs.curword % 2 = 0; exact hw,
      by show ∀ b ∈ bs.source, b < 256; exact hb, ?_⟩,
      by show bs.source = bs.source; rfl, by show bs.source_len = bs.source_len; rfl⟩
    · show 8 * bs.curword + (bs.curbit + 1) = 8 * bs.curword + bs.curbit + 1
      omega
    · show 8 * bs.curword + (bs.curbit + 1) < 8 * bs.source_len → _
      intro _
      exact hval

theorem or_shiftLeft_eq_add (bits b i : Nat) (hb : bits < 2 ^ i) (hbit : b ≤ 1) :
    bits ||| b <<< i = bits + b * 2 ^ i := by
  rw [Nat.shiftLeft_eq, Nat.mul_comm b, Nat.or_comm, ← Nat.mul_add_lt_is_or hb,
    Nat.add_comm, Nat.mul_comm]

/-- The accumulator invariant of the `getbits` loop: starting from partial
value `bits` (whose set bits lie below position `i`), the loop returns `bits`
plus the next `n` stream bits placed at positions `i`, `i+1`, …. -/
theorem getbitsFrom_spec :
    ∀ (n : Nat) (bs : Bitstream) (i bits : Nat), bs.wf → bits < 2 ^ i →
      bs.bitpos + n ≤ 8 * bs.source_len →
      (getbitsFrom bs i bits n).1
          = bits + ∑ j ∈ Finset.range n, streamBit bs.source (bs.bitpos + j) * 2 ^ (i + j)
        ∧ (getbitsFrom bs i bits n).2.bitpos = bs.bitpos + n
        ∧ (getbitsFrom bs i bits n).2.wf
        ∧ (getbitsFrom bs i bits n).2.source = bs.source
        ∧ (getbitsFrom bs i bits n).2.source_len = bs.source_len := by
  intro n
  induction n with
  | zero => intro bs i bits hwf _ _; simpa [getbitsFrom] using hwf
  | succ n ih =>
    intro bs i bits hwf hbits hin
    obtain ⟨hbit, hpos, hwf1, hsrc, hlen⟩ :=
      getbit_stream bs hwf (by omega)
    have hbit1 : (getbit bs).1 ≤ 1 := by
      rw [hbit, streamBit]
      exact Bool.toNat_le _
    have hacc : bits ||| (getbit bs).1 <<< i = bits + (getbit bs).1 * 2 ^ i :=
      or_shiftLeft_eq_add _ _ _ hbits hbit1
    have hacclt : bits + (getbit bs).1 * 2 ^ i < 2 ^ (i + 1) := by
      have h2 : 2 ^ (i + 1) = 2 * 2 ^ i := by ring
      have h3 : (getbit bs).1 * 2 ^ i ≤ 2 ^ i := by
        calc (getbit bs).1 * 2 ^ i ≤ 1 * 2 ^ i := Nat.mul_le_mul_right _ hbit1
        _ = 2 ^ i := Nat.one_mul _
      omega
    have ihres := ih (getbit bs).2 (i + 1) (bits + (getbit bs).1 * 2 ^ i)
      hwf1 hacclt (by rw [hpos, hlen]; omega)
    rw [hpos, hsrc, hlen] at ihres
    obtain ⟨ihv, ihp, ihw, ihs, ihl⟩ := ihres
    have hunf : getbitsFrom bs i bits (n + 1)
        = getbitsFrom (getbit bs).2 (i + 1) (bits ||| (getbit bs).1 <<< i) n := rfl
    rw [hunf, hacc]
    refine ⟨?_, by rw [ihp]; omega, ihw, ihs, ihl⟩
    have hsplit : ∑ j ∈ Finset.range (n + 1), streamBit bs.source (bs.bitpos + j) * 2 ^ (i + j)
        = (∑ j ∈ Finset.range n, streamBit bs.source (bs.bitpos + 1 + j) * 2 ^ (i + 1 + j))
          + streamBit bs.source bs.bitpos * 2 ^ i := by
      rw [Finset.sum_range_succ']
      simp only [Nat.add_zero]
      congr 1
      exact Finset.sum_congr rfl fun j _ => by
        rw [show bs.bitpos + (j + 1) = bs.bitpos + 1 + j by omega,
          show i + (j + 1) = i + 1 + j by omega]
    rw [ihv, hbit, hsplit]
    omega

/-- C3: `getbits n` (0 ≤ n ≤ 16) consumes exactly `n` bits in stream order and
returns the unsigned integer whose least-significant bit is the first bit
read: the sum over `i < n` of stream bit `i` shifted left by `i`, with no
byte-reversal across byte boundaries. -/
theorem getbits_reads_lsb_first (bs : Bitstream) (n : Nat) (hwf : bs.wf)
    (hn : n ≤ 16) (hin : bs.bitpos + n ≤ 8 * bs.source_len) :
    (getbits bs n).1 = ∑ j ∈ Finset.range n, streamBit bs.source (bs.bitpos + j) * 2 ^ j
      ∧ (getbits bs n).2.bitpos = bs.bitpos + n
      ∧ (getbits bs n).2.wf
      ∧ (getbits bs n).2.source = bs.source
      ∧ (getbits bs n).2.source_len = bs.source_len := by
  have h := getbitsFrom_spec n bs 0 0 hwf (by decide) hin
  obtain ⟨hv, hrest⟩ := h
  refine ⟨?_, hrest⟩
  rw [getbits, hv, Nat.zero_add]
  exact Finset.sum_congr rfl fun j _ => by rw [Nat.zero_add]

/-- Witness for C3 at a concrete input: an 11-bit read straddling the two
bytes `[181, 12]` returns `1205` — the first-read bit is the least
significant. -/
theorem getbits_reads_lsb_first_witness :
    ((getbits (bitstream_init [181, 12] 2) 11).1
        = ∑ j ∈ Finset.range 11,
            streamBit (bitstream_init [181, 12] 2).source
              ((bitstream_init [181, 12] 2).bitpos + j) * 2 ^ j)
      ∧ (getbits (bitstream_init [181, 12] 2) 11).1 = 1205 :=
  ⟨(getbits_reads_lsb_first (bitstream_init [181, 12] 2) 11 (by decide) (by decide)
      (by decide)).1, by decide⟩

theorem runCode_zero (bs : Bitstream) : runCode bs 0 = (0, bs) := rfl

theorem getbitsFrom_lt :
    ∀ (n : Nat) (bs : Bitstream) (i bits : Nat), bits < 2 ^ i →
      (getbitsFrom bs i bits n).1 < 2 ^ (i + n) := by
  intro n
  induction n with
  | zero => intro bs i bits h; simpa [getbitsFrom] using h
  | succ n ih =>
    intro bs i bits h
    have hbit : (getbit bs).1 ≤ 1 := by
      have : (getbit bs).1 = bs.curword_val >>> bs.curbit &&& 1 := by
        by_cases h15 : bs.curbit + 1 > 15
        · rw [getbit_eq_advance bs h15]
        · rw [getbit_eq_stay bs h15]
      rw [this]
      exact Nat.and_le_right
    have hacc : bits ||| (getbit bs).1 <<< i = bits + (getbit bs).1 * 2 ^ i :=
      or_shiftLeft_eq_add _ _ _ h hbit
    have hlt : bits + (getbit bs).1 * 2 ^ i < 2 ^ (i + 1) := by
      have h2 : 2 ^ (i + 1) = 2 * 2 ^ i := by ring
      have h3 : (getbit bs).1 * 2 ^ i ≤ 2 ^ i := by
        calc (getbit bs).1 * 2 ^ i ≤ 1 * 2 ^ i := Nat.mul_le_mul_right _ hbit
        _ = 2 ^ i := Nat.one_mul _
      omega
    have := ih (getbit bs).2 (i + 1) (bits ||| (getbit bs).1 <<< i) (by rw [hacc]; exact hlt)
    rw [show i + (n + 1) = i + 1 + n by omega]
    exact this

/-- The value `getbits` returns always fits in `n` bits. -/
theorem getbits_lt (bs : Bitstream) (n : Nat) : (getbits bs n).1 < 2 ^ n := by
  simpa using getbitsFrom_lt n bs 0 0 (by decide)

theorem state3_shift : ∀ (n : Nat) (bs : Bitstream),
    state3 bs (n + 1) = state3 (getbits bs 3).2 n := by
  intro n
  induction n with
  | zero => intro bs; rfl
  | succ n ih =>
    intro bs
    show (getbits (state3 bs (n + 1)) 3).2 = (getbits (state3 (getbits bs 3).2 n) 3).2
    rw [ih bs]

theorem readPretreeLens_snd : ∀ (ks : List Nat) (pl : Nat → Nat) (bs : Bitstream),
    (readPretreeLens ks pl bs).2 = state3 bs ks.length := by
  intro ks
  induction ks with
  | nil => intro pl bs; rfl
  | cons k ks ih =>
    intro pl bs
    show (readPretreeLens ks _ (getbits bs 3).2).2 = state3 bs (ks.length + 1)
    rw [ih, state3_shift]

theorem readPretreeLens_not_mem : ∀ (ks : List Nat) (pl : Nat → Nat) (bs : Bitstream) (x : Nat),
    x ∉ ks → (readPretreeLens ks pl bs).1 x = pl x := by
  intro ks
  induction ks with
  | nil => intro pl bs x _; rfl
  | cons k ks ih =>
    intro pl bs x hx
    have hx1 : x ≠ k := fun h => hx (h ▸ List.mem_cons_self k ks)
    have hx2 : x ∉ ks := fun h => hx (List.mem_cons_of_mem k h)
    show (readPretreeLens ks _ (getbits bs 3).2).1 x = pl x
    rw [ih _ _ _ hx2]
    simp [hx1]

/-- Position `i` of the first header loop receives the `i`-th 3-bit read. -/
theorem readPretreeLens_at : ∀ (ks : List Nat) (pl : Nat → Nat) (bs : Bitstream) (i : Nat),
    ks.Nodup → i < ks.length →
    (readPretreeLens ks pl bs).1 (ks.getD i 0) = (getbits (state3 bs i) 3).1 := by
  intro ks
  induction ks with
  | nil => intro pl bs i _ hi; simp at hi
  | cons k ks ih =>
    intro pl bs i hnd hi
    rcases List.nodup_cons.mp hnd with ⟨hk, hnd'⟩
    cases i with
    | zero =>
      show (readPretreeLens ks _ (getbits bs 3).2).1 k = (getbits bs 3).1
      rw [readPretreeLens_not_mem ks _ _ k hk]
      simp
    | succ i =>
      show (readPretreeLens ks _ (getbits bs 3).2).1 (ks.getD i 0)
        = (getbits (state3 bs (i + 1)) 3).1
      rw [ih _ _ i hnd' (by simpa using hi), state3_shift]

theorem zeroPretreeLens_not_mem : ∀ (ks : List Nat) (pl : Nat → Nat) (x : Nat),
    x ∉ ks → zeroPretreeLens ks pl x = pl x := by
  intro ks
  induction ks with
  | nil => intro pl x _; rfl
  | cons k ks ih =>
    intro pl x hx
    have hx1 : x ≠ k := fun h => hx (h ▸ List.mem_cons_self k ks)
    have hx2 : x ∉ ks := fun h => hx (List.mem_cons_of_mem k h)
    show zeroPretreeLens ks _ x = pl x
    rw [ih _ _ hx2]
    simp [hx1]

theorem zeroPretreeLens_mem : ∀ (ks : List Nat) (pl : Nat → Nat) (x : Nat),
    x ∈ ks → zeroPretreeLens ks pl x = 0 := by
  intro ks
  induction ks with
  | nil => intro pl x hx; simp at hx
  | cons k ks ih =>
    intro pl x hx
    by_cases hx2 : x ∈ ks
    · exact ih _ _ hx2
    · have hx1 : x = k := by
        rcases List.mem_cons.mp hx with h | h
        · exact h
        · exact absurd h hx2
      show zeroPretreeLens ks _ x = 0
      rw [zeroPretreeLens_not_mem ks _ _ hx2]
      simp [hx1]

theorem getD_take_of_lt (l : List Nat) (n i : Nat) (h : i < n) :
    (l.take n).getD i 0 = l.getD i 0 := by
  simp [List.getD_eq_getElem?_getD, List.getElem?_take_of_lt h]

/-- Within the first `num_pretree` entries, the pretree-lengths array ends up
holding the `i`-th 3-bit read at index `pretree_order[i]`. -/
theorem dynPretreeLens_at (np : Nat) (hnp : np ≤ 19) (init : Nat → Nat) (bs3 : Bitstream)
    (i : Nat) (hi : i < np) :
    zeroPretreeLens (pretree_order.drop np)
        (readPretreeLens (pretree_order.take np) init bs3).1 (pretree_order.getD i 0)
      = (getbits (state3 bs3 i) 3).1 := by
  have hlen19 : pretree_order.length = 19 := rfl
  have hlen : (pretree_order.take np).length = np := by
    rw [List.length_take, hlen19]
    omega
  have hnd : pretree_order.Nodup := by decide
  have hndt : (pretree_order.take np).Nodup := hnd.sublist (List.take_sublist np _)
  have hi2 : i < (pretree_order.take np).length := by omega
  have hmem : pretree_order.getD i 0 ∈ pretree_order.take np := by
    have heq : (pretree_order.take np).getD i 0 = pretree_order.getD i 0 :=
      getD_take_of_lt _ _ _ hi
    rw [← heq, List.getD_eq_getElem _ _ hi2]
    exact List.getElem_mem hi2
  have hnotmem : pretree_order.getD i 0 ∉ pretree_order.drop np := by
    have hdisj := List.disjoint_take_drop hnd (Nat.le_refl np)
    exact fun hc => hdisj hmem hc
  rw [zeroPretreeLens_not_mem _ _ _ hnotmem, ← getD_take_of_lt pretree_order np i hi]
  exact readPretreeLens_at _ init bs3 i hndt hi2

/-- Beyond `num_pretree`, the remaining `pretree_order` positions are zeroed
by the second loop. -/
theorem dynPretreeLens_zero (np : Nat) (init : Nat → Nat) (bs3 : Bitstream)
    (i : Nat) (h1 : np ≤ i) (h2 : i < 19) :
    zeroPretreeLens (pretree_order.drop np)
        (readPretreeLens (pretree_order.take np) init bs3).1 (pretree_order.getD i 0)
      = 0 := by
  have hlen19 : pretree_order.length = 19 := rfl
  have hlend : (pretree_order.drop np).length = 19 - np := by
    rw [List.length_drop, hlen19]
  have hi2 : i - np < (pretree_order.drop np).length := by omega
  have hmem : pretree_order.getD i 0 ∈ pretree_order.drop np := by
    have heq : (pretree_order.drop np).getD (i - np) 0 = pretree_order.getD i 0 := by
      rw [getD_drop]
      congr 1
      omega
    rw [← heq, List.getD_eq_getElem _ _ hi2]
    exact List.getElem_mem hi2
  exact zeroPretreeLens_mem _ _ _ hmem

/-- C5: the dynamic-Huffman tree descriptor reads 5 bits (HLIT, plus 257),
then 5 bits (HDIST, plus 1), then 4 bits (HCLEN, plus 4); assigns the HCLEN
3-bit reads to the fixed permutation `pretree_order` of the 19
code-length-alphabet indices, zeroing the remaining indices; and then decodes
one contiguous sequence of `HLIT+257 + HDIST+1` length values with the
pretree, of which the literal/length lengths are the first `HLIT+257` entries
and the distance lengths the next `HDIST+1`. -/
theorem dyn_header_spec (bs : Bitstream) (init : Nat → Nat) :
    (read_dyn_header bs init).num_literals_lengths = (getbits bs 5).1 + 257
      ∧ (read_dyn_header bs init).num_distances = (getbits (getbits bs 5).2 5).1 + 1
      ∧ (read_dyn_header bs init).num_pretree
          = (getbits (getbits (getbits bs 5).2 5).2 4).1 + 4
      ∧ (read_dyn_header bs init).num_pretree ≤ 19
      ∧ (∀ i, i < (read_dyn_header bs init).num_pretree →
          (read_dyn_header bs init).pretree_lengths (pretree_order.getD i 0)
            = (getbits (state3 (afterDynCounts bs) i) 3).1)
      ∧ (∀ i, (read_dyn_header bs init).num_pretree ≤ i → i < 19 →
          (read_dyn_header bs init).pretree_lengths (pretree_order.getD i 0) = 0)
      ∧ (read_dyn_header bs init).rest
          = state3 (afterDynCounts bs) (read_dyn_header bs init).num_pretree
      ∧ ∀ initL L bs1,
          deflate_decode_pretree (pretreeList (read_dyn_header bs init).pretree_lengths)
              (read_dyn_header bs init).rest initL
              ((read_dyn_header bs init).num_literals_lengths
                + (read_dyn_header bs init).num_distances) = .ok (L, bs1) →
          dyn_block_trees bs init initL
            = .ok ((List.range (read_dyn_header bs init).num_literals_lengths).map
                  fun s => L s,
                (List.range (read_dyn_header bs init).num_distances).map
                  fun s => L (((read_dyn_header bs init).num_literals_lengths : Int) + s),
                bs1) := by
  have hnp19 : (read_dyn_header bs init).num_pretree ≤ 19 := by
    have hlt := getbits_lt (getbits (getbits bs 5).2 5).2 4
    have h16 : (2 : Nat) ^ 4 = 16 := rfl
    show (getbits (getbits (getbits bs 5).2 5).2 4).1 + 4 ≤ 19
    omega
  refine ⟨rfl, rfl, rfl, hnp19, ?_, ?_, ?_, ?_⟩
  · intro i hi
    exact dynPretreeLens_at _ hnp19 init (afterDynCounts bs) i hi
  · intro i h1 h2
    exact dynPretreeLens_zero _ init (afterDynCounts bs) i h1 h2
  · show (readPretreeLens
        (pretree_order.take ((getbits (getbits (getbits bs 5).2 5).2 4).1 + 4)) init
        (afterDynCounts bs)).2 = _
    rw [readPretreeLens_snd]
    have hlen : (pretree_order.take ((getbits (getbits (getbits bs 5).2 5).2 4).1 + 4)).length
        = (getbits (getbits (getbits bs 5).2 5).2 4).1 + 4 := by
      have hlt := getbits_lt (getbits (getbits bs 5).2 5).2 4
      have h16 : (2 : Nat) ^ 4 = 16 := rfl
      rw [List.length_take]
      show min _ (19 : Nat) = _
      omega
    rw [hlen]
    rfl
  · intro initL L bs1 hok
    show (match deflate_decode_pretree (pretreeList (read_dyn_header bs init).pretree_lengths)
        (read_dyn_header bs init).rest initL
        ((read_dyn_header bs init).num_literals_lengths
          + (read_dyn_header bs init).num_distances) with
      | .error e => (.error e : Except Err (List Nat × List Nat × Bitstream))
      | .ok (lens, b1) =>
        .ok ((List.range (read_dyn_header bs init).num_literals_lengths).map fun s => lens s,
          (List.range (read_dyn_header bs init).num_distances).map
            fun s => lens (((read_dyn_header bs init).num_literals_lengths : Int) + s),
          b1)) = _
    rw [hok]

/-- Witness for C5 at a concrete input: index `pretree_order[0] = 16` of the
pretree-lengths array holds the first 3-bit read after the three count
fields. -/
theorem dyn_header_spec_witness :
    (read_dyn_header bsC5 fun _ => 0).pretree_lengths (pretree_order.getD 0 0)
      = (getbits (state3 (afterDynCounts bsC5) 0) 3).1 :=
  (dyn_header_spec bsC5 fun _ => 0).2.2.2.2.1 0 (by decide)

theorem decode_pretree_go_step (pretree : List Nat) (bs : Bitstream) (lengths : Int → Nat)
    (i num_lengths fuel : Nat) (h : i < num_lengths) :
    decode_pretree_go pretree bs lengths i num_lengths (fuel + 1)
      = match readsym pretree bs with
        | .error e => .error e
        | .ok (code, bs1) =>
          if code ≤ 15 then
            decode_pretree_go pretree bs1 (writeRun lengths i 1 code) (i + 1) num_lengths fuel
          else if code = 16 then
            decode_pretree_go pretree (getbits bs1 2).2
              (writeRun lengths i (3 + (getbits bs1 2).1) (lengths ((i : Int) - 1)))
              (i + (3 + (getbits bs1 2).1)) num_lengths fuel
          else if code = 17 then
            decode_pretree_go pretree (getbits bs1 3).2
              (writeRun lengths i (3 + (getbits bs1 3).1) 0)
              (i + (3 + (getbits bs1 3).1)) num_lengths fuel
          else
            decode_pretree_go pretree (getbits bs1 7).2
              (writeRun lengths i (11 + (getbits bs1 7).1) 0)
              (i + (11 + (getbits bs1 7).1)) num_lengths fuel := by
  show (if i < num_lengths then _ else _) = _
  rw [if_pos h]

theorem decode_pretree_go_exit (pretree : List Nat) (bs : Bitstream) (lengths : Int → Nat)
    (i num_lengths fuel : Nat) (h : ¬i < num_lengths) :
    decode_pretree_go pretree bs lengths i num_lengths fuel = .ok (lengths, bs) := by
  cases fuel with
  | zero => rfl
  | succ fuel =>
    show (if i < num_lengths then _ else _) = _
    rw [if_neg h]

/-- The wrapper's fuel choice is irrelevant: any fuel of at least
`num_lengths - i` (an upper bound on the remaining loop iterations, since `i`
advances by at least 1 per iteration) yields the same result, so the fuel
parameter does not change the embedded function's meaning. -/
theorem decode_pretree_go_fuel_irrel (pretree : List Nat) :
    ∀ f g (bs : Bitstream) (lengths : Int → Nat) (i num_lengths : Nat),
      num_lengths - i ≤ f → num_lengths - i ≤ g →
      decode_pretree_go pretree bs lengths i num_lengths f
        = decode_pretree_go pretree bs lengths i num_lengths g := by
  intro f
  induction f with
  | zero =>
    intro g bs lengths i num hf _
    have hge : ¬i < num := by omega
    rw [decode_pretree_go_exit pretree bs lengths i num 0 hge,
      decode_pretree_go_exit pretree bs lengths i num g hge]
  | succ f ih =>
    intro g bs lengths i num hf hg
    by_cases hlt : i < num
    · cases g with
      | zero => omega
      | succ g =>
        rw [decode_pretree_go_step pretree bs lengths i num f hlt,
          decode_pretree_go_step pretree bs lengths i num g hlt]
        cases hres : readsym pretree bs with
        | error e => rfl
        | ok cb =>
          obtain ⟨code, bs1⟩ := cb
          by_cases h15 : code ≤ 15
          · simp only [h15, if_pos]
            exact ih g bs1 _ (i + 1) num (by omega) (by omega)
          · by_cases h16 : code = 16
            · simp only [h15, h16, if_neg, if_pos, reduceIte]
              exact ih g _ _ (i + (3 + (getbits bs1 2).1)) num (by omega) (by omega)
            · by_cases h17 : code = 17
              · simp only [h15, h16, h17, reduceIte]
                exact ih g _ _ (i + (3 + (getbits bs1 3).1)) num (by omega) (by omega)
              · simp only [h15, h16, h17, reduceIte]
                exact ih g _ _ (i + (11 + (getbits bs1 7).1)) num (by omega) (by omega)
    · rw [decode_pretree_go_exit pretree bs lengths i num (f + 1) hlt,
        decode_pretree_go_exit pretree bs lengths i num g hlt]

/-- C6: the source performs no bounds checking while decoding the combined
code-length sequence.  With the concrete pretree `pt6` (symbol 18 has the
1-bit code `1`), the stream `bs6` (a 1 bit then seven 0 bits) and a declared
total of 5 length values, the first decoded symbol is 18, whose run of
`11 + 0` zeros is written straight past the declared total — indices 5
through 10 are overwritten (index 10 reads back 0, and index 11 still holds
the initial filler 7) — and the decoder returns successfully instead of
failing with `InvalidTreeDescription` as the specification demands.  (The
embedding, like the C, has no such error outcome in this loop at all.) -/
theorem decode_pretree_overruns_declared_count :
    isInvalidTreeDescription (deflate_decode_pretree pt6 bs6 (fun _ => 7) 5) = false
      ∧ pretreeResultAt (deflate_decode_pretree pt6 bs6 (fun _ => 7) 5) 4 = some 0
      ∧ pretreeResultAt (deflate_decode_pretree pt6 bs6 (fun _ => 7) 5) 5 = some 0
      ∧ pretreeResultAt (deflate_decode_pretree pt6 bs6 (fun _ => 7) 5) 10 = some 0
      ∧ pretreeResultAt (deflate_decode_pretree pt6 bs6 (fun _ => 7) 5) 11 = some 7 := by
  decide

/-- C7: the tables `main` computes are exactly the RFC 1951 §3.2.5 tables:
length codes 257-284 follow the arithmetic progression `base += 1 << extra`
from base 3, distance codes 0-29 the progression from base 1, and length code
285 is the special case with zero extra bits and fixed value 258. -/
theorem tables_match_rfc :
    extra_len_bits = rfc_length_extra ∧ base_lengths = rfc_length_base
      ∧ extra_dist_bits = rfc_dist_extra ∧ base_dists = rfc_dist_base
      ∧ base_lengths.getD 28 0 = 258 ∧ extra_len_bits.getD 28 0 = 0
      ∧ rfc_length_base.getD 0 0 = 3 ∧ rfc_dist_base.getD 0 0 = 1
      ∧ (∀ c, c < 27 →
          rfc_length_base.getD (c + 1) 0
            = rfc_length_base.getD c 0 + 2 ^ rfc_length_extra.getD c 0)
      ∧ ∀ c, c < 29 →
          rfc_dist_base.getD (c + 1) 0
            = rfc_dist_base.getD c 0 + 2 ^ rfc_dist_extra.getD c 0 := by
  refine ⟨by decide, by decide, by decide, by decide, by decide, by decide, by decide,
    by decide, ?_, ?_⟩
  · decide
  · decide

/-- Witness for C7's progression clauses at a concrete code: length code 265
(index 8) has base 11 and one extra bit, so index 9 has base 13. -/
theorem tables_match_rfc_witness :
    rfc_length_base.getD 9 0 = rfc_length_base.getD 8 0 + 2 ^ rfc_length_extra.getD 8 0 :=
  tables_match_rfc.2.2.2.2.2.2.2.2.1 8 (by decide)

/-- The copy loop appends exactly `len` bytes, never rewrites the existing
prefix, and every appended byte equals the byte `dist` positions earlier in
the buffer as already extended — the overlapping-copy semantics. -/
theorem copyLoop_spec :
    ∀ (len : Nat) (out : List Nat) (dist : Nat), 1 ≤ dist → dist ≤ out.length →
      (copyLoop out dist len).length = out.length + len
        ∧ (copyLoop out dist len).take out.length = out
        ∧ ∀ i, i < len →
            (copyLoop out dist len).getD (out.length + i) 0
              = (copyLoop out dist len).getD (out.length + i - dist) 0 := by
  intro len
  induction len with
  | zero =>
    intro out dist _ _
    exact ⟨by simp [copyLoop], by simp [copyLoop], fun i hi => absurd hi (by omega)⟩
  | succ n ih =>
    intro out dist h1 h2
    have hstep : copyLoop out dist (n + 1)
        = copyLoop (out ++ [out.getD (out.length - dist) 0]) dist n := rfl
    have hlen1 : (out ++ [out.getD (out.length - dist) 0]).length = out.length + 1 := by
      simp
    obtain ⟨ihlen, ihtake, ihget⟩ :=
      ih (out ++ [out.getD (out.length - dist) 0]) dist h1 (by omega)
    rw [hstep]
    have hlenval : (copyLoop (out ++ [out.getD (out.length - dist) 0]) dist n).length
        = out.length + (n + 1) := by
      rw [ihlen, hlen1]
      omega
    have htake1 : (copyLoop (out ++ [out.getD (out.length - dist) 0]) dist n).take
        (out.length + 1) = out ++ [out.getD (out.length - dist) 0] := by
      rw [← hlen1]
      exact ihtake
    have hkept : ∀ j, j < out.length + 1 →
        (copyLoop (out ++ [out.getD (out.length - dist) 0]) dist n).getD j 0
          = (out ++ [out.getD (out.length - dist) 0]).getD j 0 := by
      intro j hj
      conv_rhs => rw [← htake1]
      rw [getD_take_of_lt _ _ _ hj]
    have htake : (copyLoop (out ++ [out.getD (out.length - dist) 0]) dist n).take out.length
        = out := by
      have hsub : (copyLoop (out ++ [out.getD (out.length - dist) 0]) dist n).take out.length
          = ((copyLoop (out ++ [out.getD (out.length - dist) 0]) dist n).take
              (out.length + 1)).take out.length := by
        rw [List.take_take]
        congr 1
        omega
      rw [hsub, htake1, List.take_append_of_le_length (by omega), List.take_length]
    refine ⟨hlenval, htake, ?_⟩
    intro i hi
    cases i with
    | zero =>
      have hL : out.length + 0 = out.length := by omega
      rw [hL]
      have hv1 : (copyLoop (out ++ [out.getD (out.length - dist) 0]) dist n).getD out.length 0
          = out.getD (out.length - dist) 0 := by
        rw [hkept out.length (by omega)]
        simp [List.getD_eq_getElem?_getD, List.getElem?_append_right (Nat.le_refl _)]
      have hv2 : (copyLoop (out ++ [out.getD (out.length - dist) 0]) dist n).getD
          (out.length - dist) 0 = out.getD (out.length - dist) 0 := by
        rw [hkept (out.length - dist) (by omega)]
        rw [List.getD_eq_getElem?_getD, List.getElem?_append_left (by omega),
          ← List.getD_eq_getElem?_getD]
      rw [hv1, hv2]
    | succ j =>
      have hj : j < n := by omega
      have heq := ihget j hj
      rw [hlen1] at heq
      rw [show out.length + (j + 1) = out.length + 1 + j by omega]
      exact heq

/-- C2: `copy_match(distance, length)` fails with `InvalidDistance` unless
`1 ≤ distance ≤ current_length`, and otherwise appends `length` bytes one at a
time, each copied from `distance` positions back relative to the output as it
grows, so an overlapping copy propagates bytes written earlier in the same
copy; in particular the back-reference `distance = 1, length = 5` after the single
literal `A` (65) appends the five bytes `AAAAA`. -/
theorem copy_match_spec (out : List Nat) (dist len : Nat) :
    (¬(1 ≤ dist ∧ dist ≤ out.length) → copy_match out dist len = .error .InvalidDistance)
      ∧ (1 ≤ dist → dist ≤ out.length →
          copy_match out dist len = .ok (copyLoop out dist len)
            ∧ (copyLoop out dist len).length = out.length + len
            ∧ (copyLoop out dist len).take out.length = out
            ∧ ∀ i, i < len →
                (copyLoop out dist len).getD (out.length + i) 0
                  = (copyLoop out dist len).getD (out.length + i - dist) 0)
      ∧ copy_match [65] 1 5 = .ok ([65] ++ [65, 65, 65, 65, 65]) := by
  refine ⟨?_, ?_, by decide⟩
  · intro h
    simp [copy_match, h]
  · intro h1 h2
    obtain ⟨hl, ht, hg⟩ := copyLoop_spec len out dist h1 h2
    exact ⟨by simp [copy_match, h1, h2], hl, ht, hg⟩

/-- Witness for C2 at the spec's own example: after the literal `A`, the
overlapping copy `distance = 1, length = 5` succeeds and its last appended
byte (index 5) equals the byte one position back. -/
theorem copy_match_spec_witness :
    copy_match [65] 1 5 = .ok (copyLoop [65] 1 5)
      ∧ (copyLoop [65] 1 5).getD (1 + 4) 0 = (copyLoop [65] 1 5).getD (1 + 4 - 1) 0 :=
  ⟨((copy_match_spec [65] 1 5).2.1 (by decide) (by decide)).1,
    ((copy_match_spec [65] 1 5).2.1 (by decide) (by decide)).2.2.2 4 (by decide)⟩

/-- C8: the sketch does not decode stored blocks.  On a block whose 2-bit
type field is 00 (here: final-block bit 1, then type bits 0 0), `main` exits
fatally with `unsupported uncompressed block` instead of byte-aligning,
reading LEN/NLEN, verifying `NLEN == ~LEN` (`StoredBlockLengthMismatch`
otherwise) and copying LEN raw bytes, as the specification demands.  No
LEN/NLEN handling exists anywhere in the source. -/
theorem stored_block_rejected :
    block_dispatch (bitstream_init [1, 0] 2) = .error .UnsupportedStoredBlock := by
  decide

/-- C9: the (spec-modelled) trailer check fails with `TrailerMismatch` exactly
when the 4-byte little-endian size field disagrees with the produced length;
in particular a trailer declaring size 100 over 99 produced bytes fails. -/
theorem trailer_mismatch_detected (gz : List Nat) (n : Nat) :
    (check_trailer gz n = .error .TrailerMismatch
        ↔ little_uint32t (gz.drop (gz.length - 4)) ≠ n % 2 ^ 32)
      ∧ check_trailer [100, 0, 0, 0] 99 = .error .TrailerMismatch := by
  constructor
  · unfold check_trailer
    by_cases h : little_uint32t (gz.drop (gz.length - 4)) = n % 2 ^ 32 <;> simp [h]
  · decide

theorem little_uint32t_eq (d : List Nat) (h0 : d.getD 0 0 < 256) (h1 : d.getD 1 0 < 256)
    (h2 : d.getD 2 0 < 256) :
    little_uint32t d
      = d.getD 0 0 + 256 * d.getD 1 0 + 65536 * d.getD 2 0 + 16777216 * d.getD 3 0 := by
  have e8 : (2 : Nat) ^ 8 = 256 := rfl
  have e16 : (2 : Nat) ^ 16 = 65536 := rfl
  have e24 : (2 : Nat) ^ 24 = 16777216 := rfl
  have hx : d.getD 1 0 <<< 8 ||| d.getD 0 0 = 2 ^ 8 * d.getD 1 0 + d.getD 0 0 := by
    rw [Nat.shiftLeft_eq, Nat.mul_comm]
    exact (Nat.mul_add_lt_is_or h0 _).symm
  have hxlt : 2 ^ 8 * d.getD 1 0 + d.getD 0 0 < 2 ^ 16 := by
    rw [e8, e16]
    omega
  have hy : d.getD 2 0 <<< 16 ||| (2 ^ 8 * d.getD 1 0 + d.getD 0 0)
      = 2 ^ 16 * d.getD 2 0 + (2 ^ 8 * d.getD 1 0 + d.getD 0 0) := by
    rw [Nat.shiftLeft_eq, Nat.mul_comm]
    exact (Nat.mul_add_lt_is_or hxlt _).symm
  have hylt : 2 ^ 16 * d.getD 2 0 + (2 ^ 8 * d.getD 1 0 + d.getD 0 0) < 2 ^ 24 := by
    rw [e8, e16, e24]
    omega
  have hz : d.getD 3 0 <<< 24 ||| (2 ^ 16 * d.getD 2 0 + (2 ^ 8 * d.getD 1 0 + d.getD 0 0))
      = 2 ^ 24 * d.getD 3 0 + (2 ^ 16 * d.getD 2 0 + (2 ^ 8 * d.getD 1 0 + d.getD 0 0)) := by
    rw [Nat.shiftLeft_eq, Nat.mul_comm]
    exact (Nat.mul_add_lt_is_or hylt _).symm
  rw [little_uint32t, Nat.or_assoc, Nat.or_assoc, hx, hy, hz, e8, e16, e24]
  omega

/-- C10: when the flag byte has FEXTRA (mask 4) set, the header parser reads
the 4 bytes after the 10-byte fixed header as a little-endian 32-bit
extra-field size and advances the parse offset by `4 + size` — a 4-byte
length field, not the 2-byte XLEN of RFC 1952 — before the FNAME, FCOMMENT
and FHCRC fields are processed at the resulting offsets. -/
theorem fextra_field_is_4_byte_le (gz : List Nat) (h : GzHeaderOffsets)
    (hok : parse_header gz = .ok h) (hx : h.flags &&& 4 ≠ 0)
    (hb : ∀ b ∈ gz, b < 256) :
    h.flags = gz.getD 3 0
      ∧ h.off_extra = 10 + 4 + little_uint32t (gz.drop 10)
      ∧ little_uint32t (gz.drop 10)
          = gz.getD 10 0 + 256 * gz.getD 11 0 + 65536 * gz.getD 12 0
            + 16777216 * gz.getD 13 0
      ∧ h.off_name
          = (if h.flags &&& 8 ≠ 0 then h.off_extra + strlenFrom gz h.off_extra + 1
            else h.off_extra)
      ∧ h.off_comment
          = (if h.flags &&& 16 ≠ 0 then h.off_name + strlenFrom gz h.off_name + 1
            else h.off_name)
      ∧ h.off_crc = (if h.flags &&& 2 ≠ 0 then h.off_comment + 2 else h.off_comment) := by
  have hle : little_uint32t (gz.drop 10)
      = gz.getD 10 0 + 256 * gz.getD 11 0 + 65536 * gz.getD 12 0 + 16777216 * gz.getD 13 0 := by
    have hall : ∀ i, gz.getD i 0 < 256 := getD_lt_256 gz hb
    rw [little_uint32t_eq (gz.drop 10) (by rw [getD_drop]; exact hall 10)
      (by rw [getD_drop]; exact hall 11) (by rw [getD_drop]; exact hall 12),
      getD_drop, getD_drop, getD_drop, getD_drop]
  unfold parse_header at hok
  by_cases hsz : gz.length < 10
  · rw [if_pos hsz] at hok
    exact absurd hok (by simp)
  rw [if_neg hsz] at hok
  by_cases hmagic : ¬(gz.getD 0 0 = 31 ∧ gz.getD 1 0 = 139)
  · rw [if_pos hmagic] at hok
    exact absurd hok (by simp)
  rw [if_neg hmagic] at hok
  by_cases hmeth : gz.getD 2 0 ≠ 8
  · rw [if_pos hmeth] at hok
    exact absurd hok (by simp)
  rw [if_neg hmeth] at hok
  have hrec := (Except.ok.inj hok).symm
  subst hrec
  have hx4 : gz.getD 3 0 &&& 4 ≠ 0 := hx
  refine ⟨rfl, ?_, hle, rfl, rfl, rfl⟩
  show (if gz.getD 3 0 &&& 4 ≠ 0 then 10 + 4 + little_uint32t (gz.drop 10) else 10) = _
  rw [if_pos hx4]

/-- Witness for C10 at a concrete input: `gz10` has flags 4 and extra-size
field `[2, 0, 0, 0]`, so parsing resumes at offset 16 = 10 + 4 + 2. -/
theorem fextra_field_is_4_byte_le_witness :
    (⟨4, 16, 16, 16, 16⟩ : GzHeaderOffsets).off_extra
      = 10 + 4 + little_uint32t (gz10.drop 10) :=
  (fextra_field_is_4_byte_le gz10 ⟨4, 16, 16, 16, 16⟩ (by decide) (by decide)
    (by decide)).2.1

theorem readsymGo_step (lengths : List Nat) (bs : Bitstream) (k fuel : Nat) :
    readsymGo lengths k (runCode bs k).1 (runCode bs k).2 (fuel + 1)
      = match findSym lengths (k + 1) (runCode bs (k + 1)).1 with
        | some s => .ok (s, (runCode bs (k + 1)).2)
        | none => readsymGo lengths (k + 1) (runCode bs (k + 1)).1 (runCode bs (k + 1)).2 fuel :=
  rfl

/-- If no code length up to 15 produces a match, the decode loop runs out of
fuel and reports `InvalidHuffmanCode`. -/
theorem readsymGo_all_none (lengths : List Nat) (bs : Bitstream) :
    ∀ fuel k, k + fuel = 15 →
      (∀ j, k < j → j ≤ 15 → findSym lengths j (runCode bs j).1 = none) →
      readsymGo lengths k (runCode bs k).1 (runCode bs k).2 fuel
        = .error .InvalidHuffmanCode := by
  intro fuel
  induction fuel with
  | zero => intro k _ _; rfl
  | succ fuel ih =>
    intro k hk hnone
    rw [readsymGo_step, hnone (k + 1) (by omega) (by omega)]
    exact ih (k + 1) (by omega) fun j h1 h2 => hnone j (by omega) h2

/-- If length `m` is the first at which a match exists, the decode loop stops
there and returns the matched symbol with exactly `m` bits consumed. -/
theorem readsymGo_first_match (lengths : List Nat) (bs : Bitstream) :
    ∀ fuel k m s, k + fuel = 15 → k < m → m ≤ 15 →
      findSym lengths m (runCode bs m).1 = some s →
      (∀ j, k < j → j < m → findSym lengths j (runCode bs j).1 = none) →
      readsymGo lengths k (runCode bs k).1 (runCode bs k).2 fuel
        = .ok (s, (runCode bs m).2) := by
  intro fuel
  induction fuel with
  | zero => intro k m s hk hkm hm _ _; omega
  | succ fuel ih =>
    intro k m s hk hkm hm hfind hnone
    rw [readsymGo_step]
    by_cases hm1 : m = k + 1
    · subst hm1
      rw [hfind]
    · rw [hnone (k + 1) (by omega) (by omega)]
      exact ih (k + 1) m s (by omega) (by omega) hm hfind fun j h1 h2 => hnone j (by omega) h2

/-- A successful `findSym` lookup really is a symbol the canonical
construction assigned that (length, code) pair. -/
theorem findSym_some (lengths : List Nat) (len code s : Nat)
    (h : findSym lengths len code = some s) :
    lengths.getD s 0 = len ∧ codeOf lengths s = code ∧ s < lengths.length := by
  have hp := List.find?_some h
  have hm := List.mem_of_find?_eq_some h
  simp only [Bool.and_eq_true, beq_iff_eq] at hp
  exact ⟨hp.1, hp.2, by simpa using hm⟩

/-- C1: for every code-lengths sequence the tree builder accepts and every bit
stream, `readsym` reads bits one at a time maintaining a running code value
(`runCode`) and returns the symbol the canonical construction assigned to the
first (length, code) pair that matches; once the maximum code length 15 is
exceeded without a match it fails with `InvalidHuffmanCode`. -/
theorem readsym_decodes_first_match (lengths : List Nat) (bs : Bitstream)
    (hacc : hufftreeAccepted lengths) :
    ((∀ j, 1 ≤ j → j ≤ 15 → findSym lengths j (runCode bs j).1 = none) →
        readsym lengths bs = .error .InvalidHuffmanCode)
      ∧ ∀ m s, 1 ≤ m → m ≤ 15 → findSym lengths m (runCode bs m).1 = some s →
          (∀ j, 1 ≤ j → j < m → findSym lengths j (runCode bs j).1 = none) →
          readsym lengths bs = .ok (s, (runCode bs m).2)
            ∧ lengths.getD s 0 = m ∧ codeOf lengths s = (runCode bs m).1
            ∧ s < lengths.length := by
  constructor
  · intro hnone
    exact readsymGo_all_none lengths bs 15 0 (by omega) fun j h1 h2 => hnone j (by omega) h2
  · intro m s h1 h15 hfind hnone
    obtain ⟨hlen, hcode, hmem⟩ := findSym_some lengths m (runCode bs m).1 s hfind
    refine ⟨?_, hlen, hcode, hmem⟩
    exact readsymGo_first_match lengths bs 15 0 m s (by omega) (by omega) h15 hfind
      fun j hj1 hj2 => hnone j (by omega) hj2

/-- Witness for C1 at a concrete input: the two-symbol tree with lengths
`[1, 1]` decodes the stream starting with a 0 bit to symbol 0 after one
bit. -/
theorem readsym_decodes_first_match_witness :
    readsym [1, 1] (bitstream_init [2, 0] 2)
      = .ok (0, (runCode (bitstream_init [2, 0] 2) 1).2) :=
  ((readsym_decodes_first_match [1, 1] (bitstream_init [2, 0] 2) (by decide)).2 1 0
    (by decide) (by decide) (by decide) fun j hj1 hj2 => absurd (Nat.lt_of_lt_of_le hj2 hj1)
      (Nat.lt_irrefl j)).1

/-- C4: the source has no end-of-stream failure.  After the two-byte buffer
`[171, 205]` is fully consumed (the cursor sits at bit 16 = 8 × source_len),
a further `getbit` still returns a value — bit 0 of the stale cached word,
here 1 — and advances the cursor, instead of failing with
`UnexpectedEndOfStream` as the specification demands; `getbit`'s embedded
type `Nat × Bitstream` has no error outcome at all, mirroring the C. -/
theorem getbit_past_end_returns_value :
    ((getbits (bitstream_init [171, 205] 2) 16).2.bitpos
        = 8 * (getbits (bitstream_init [171, 205] 2) 16).2.source_len)
      ∧ (getbit ((getbits (bitstream_init [171, 205] 2) 16).2)).1 = 1
      ∧ (getbit ((getbits (bitstream_init [171, 205] 2) 16).2)).2.bitpos = 17 := by
  decide

end Gunzip
